import Mathlib

/-!
Verification of the Voxify terminology-learning and transcript-cleaning core
(`transcriptor.py`).

Python strings are modelled as `List Char`.  The source only meaningfully
handles ASCII text, so `str.lower` / `str.capitalize` are modelled by the ASCII
`Char.toLower` / `Char.toUpper`, the Python whitespace class by its ASCII
members, and the regex word-character class `\w` (on lowered text) by
lowercase letters, digits and underscore.
-/

namespace Voxify

/-- Character list of a Lean string literal (shorthand for concrete inputs). -/
def lc (s : String) : List Char := s.data

/-- A lowercase ASCII letter, the character class `[a-z]` of the tokenizer. -/
def isLowerAlpha (c : Char) : Bool := 'a' ≤ c && c ≤ 'z'

/-- An ASCII digit. -/
def isDigitChar (c : Char) : Bool := '0' ≤ c && c ≤ '9'

/-- A regex word character `\w`, restricted to lowered ASCII text:
lowercase letter, digit, or underscore.  The regex `\b` boundary holds between
a word character and a non-word character (or a string end). -/
def isWordChar (c : Char) : Bool := isLowerAlpha c || isDigitChar c || c == '_'

/-- An ASCII Python whitespace character (`str.split()` / `str.strip()`). -/
def isPySpace (c : Char) : Bool :=
  c == ' ' || c == '\t' || c == '\n' || c == '\r' || c == '\x0b' || c == '\x0c'

/-- A character of the strip set `'.,;!?'` used by `clean_transcription`. -/
def isStripChar (c : Char) : Bool :=
  c == '.' || c == ',' || c == ';' || c == '!' || c == '?'

/-- Python `text.lower()` (ASCII). -/
def lowerStr (s : List Char) : List Char := s.map Char.toLower

/-- Python `s.strip(chars)`: drop the characters satisfying `p` from both
ends of the string. -/
def stripEnds (p : Char → Bool) (s : List Char) : List Char :=
  (((s.dropWhile p).reverse).dropWhile p).reverse

/-- Python `word.strip('.,;!?')` as used throughout `clean_transcription`. -/
def stripPunct (s : List Char) : List Char := stripEnds isStripChar s

/-- Python `s.strip()` (whitespace strip). -/
def stripWS (s : List Char) : List Char := stripEnds isPySpace s

/-- Python `str.capitalize()` (ASCII): uppercase the first character,
lowercase the rest. -/
def capitalizeStr : List Char → List Char
  | [] => []
  | c :: cs => Char.toUpper c :: cs.map Char.toLower

/-- Worker for `str.split()` with no argument: split on whitespace runs,
discarding empty fragments.  `cur` is the current (reversed) fragment. -/
def pySplitAux (cur : List Char) : List Char → List (List Char)
  | [] => if cur.isEmpty then [] else [cur.reverse]
  | c :: cs =>
    if isPySpace c then
      if cur.isEmpty then pySplitAux [] cs else cur.reverse :: pySplitAux [] cs
    else pySplitAux (c :: cur) cs

/-- Python `s.split()`: whitespace-separated words, no empties. -/
def pySplitWS (s : List Char) : List (List Char) := pySplitAux [] s

/-- Worker for `text.split('.')`: split on every literal period, keeping
empty fragments. -/
def splitDotAux (cur : List Char) : List Char → List (List Char)
  | [] => [cur.reverse]
  | c :: cs =>
    if c == '.' then cur.reverse :: splitDotAux [] cs
    else splitDotAux (c :: cur) cs

/-- Python `text.split('.')`. -/
def splitDot (s : List Char) : List (List Char) := splitDotAux [] s

/-- Worker for `re.findall(r'\b[a-z]+\b', text)` on lowered text.

The state records whether the previous character was a word character
(`prevWord`) and the letter run currently being collected (`cur`, reversed),
if any.  A run is only collected when it starts at a `\b` boundary (previous
character absent or not a word character); a collected run is only emitted
when it ends at a `\b` boundary (next character absent or not a word
character) — a following digit or underscore invalidates the run, and
backtracking inside the run cannot produce a boundary, so no token results. -/
def tokenizeAux : List Char → Bool → Option (List Char) → List (List Char)
  | [], _, none => []
  | [], _, some run => [run.reverse]
  | c :: cs, prevWord, none =>
    if isLowerAlpha c then
      if prevWord then tokenizeAux cs true none
      else tokenizeAux cs true (some [c])
    else tokenizeAux cs (isWordChar c) none
  | c :: cs, _, some run =>
    if isLowerAlpha c then tokenizeAux cs true (some (c :: run))
    else if isWordChar c then tokenizeAux cs true none
    else run.reverse :: tokenizeAux cs false none

/-- Tokenization of one document during training:
`text = text.lower(); words = re.findall(r'\b[a-z]+\b', text)`. -/
def tokenize (text : List Char) : List (List Char) :=
  tokenizeAux (lowerStr text) false none

/-- The bigrams of one document's token sequence:
`f"{words[i]} {words[i+1]}"` for `i in range(len(words) - 1)`. -/
def bigramsOf : List (List Char) → List (List Char)
  | w1 :: w2 :: rest => (w1 ++ ' ' :: w2) :: bigramsOf (w2 :: rest)
  | _ => []

/-- The trigrams of one document's token sequence:
`f"{words[i]} {words[i+1]} {words[i+2]}"` for `i in range(len(words) - 2)`. -/
def trigramsOf : List (List Char) → List (List Char)
  | w1 :: w2 :: w3 :: rest => (w1 ++ ' ' :: w2 ++ ' ' :: w3) :: trigramsOf (w2 :: w3 :: rest)
  | _ => []

/-- The list `all_words`: token streams of all documents concatenated. -/
def corpusWords (docs : List (List Char)) : List (List Char) :=
  (docs.map tokenize).flatten

/-- The list `all_bigrams`: per-document bigrams, concatenated (n-grams never span a
document boundary). -/
def corpusBigrams (docs : List (List Char)) : List (List Char) :=
  (docs.map (fun d => bigramsOf (tokenize d))).flatten

/-- The list `all_trigrams`: per-document trigrams, concatenated. -/
def corpusTrigrams (docs : List (List Char)) : List (List Char) :=
  (docs.map (fun d => trigramsOf (tokenize d))).flatten

/-- The fixed training stoplist `filler_words` of `train_worker`. -/
def filler_words_training : List (List Char) :=
  (["um", "uh", "like", "you", "know", "mean", "just", "very",
    "really", "quite", "sort", "kind", "basically", "actually",
    "literally", "right", "okay", "well", "gonna", "the", "and",
    "for", "are", "this", "that", "with", "from", "have", "been"]).map String.data

/-- The set `self.medical_terms` derived from the corpus: words of the corpus (the
distinct keys of `Counter(all_words)`) with `count >= 3 and len(word) > 3 and
word not in filler_words`. -/
def medical_terms_of (docs : List (List Char)) : List (List Char) :=
  (corpusWords docs).dedup.filter
    (fun w => decide (3 ≤ (corpusWords docs).count w ∧ 3 < w.length ∧
      w ∉ filler_words_training))

/-- The set `self.medical_phrases` derived from the corpus: bigrams with
`count >= 2`, together with trigrams with `count >= 2`. -/
def medical_phrases_of (docs : List (List Char)) : List (List Char) :=
  (corpusBigrams docs).dedup.filter
      (fun p => decide (2 ≤ (corpusBigrams docs).count p))
    ++ (corpusTrigrams docs).dedup.filter
      (fun p => decide (2 ≤ (corpusTrigrams docs).count p))

/-- The vocabulary state held by the application: `self.medical_terms`,
`self.medical_phrases`, `self.trained`.  The sets are modelled as lists, with
membership as the set interface. -/
structure MedicalDB where
  medical_terms : List (List Char)
  medical_phrases : List (List Char)
  trained : Bool

/-- The state at `__init__` before any training: both sets empty,
`trained = False` (the untrained state, i.e. the empty Vocabulary). -/
def untrainedDB : MedicalDB :=
  { medical_terms := [], medical_phrases := [], trained := false }

/-- Outcome of one run of `train_worker`, carrying the resulting application
state (in memory and, on success, persisted). -/
inductive TrainOutcome where
  | noCorpus (db : MedicalDB)
  | success (db : MedicalDB)

/-- One run of `train_worker` over the selected folder.  Each element of
`files` is one candidate document file: `some text` if text extraction
succeeds, `none` if it fails (the source skips it and continues).  When the
glob finds no files at all (`if not text_files`), the worker shows the error
dialog and returns with the state untouched; otherwise it derives the new
vocabulary from whatever text was extracted (possibly none) and replaces the
state (persistence is modelled on its happy path). -/
def train_worker (files : List (Option (List Char))) (db : MedicalDB) : TrainOutcome :=
  if files.isEmpty then TrainOutcome.noCorpus db
  else
    TrainOutcome.success
      { medical_terms := medical_terms_of (files.filterMap id),
        medical_phrases := medical_phrases_of (files.filterMap id),
        trained := true }

/-- The cleaning stoplist `filler_words` of `clean_transcription` (distinct
from the training stoplist; contains four multi-word entries). -/
def filler_words_cleaning : List (List Char) :=
  (["um", "uh", "like", "you know", "i mean", "sort of", "kind of",
    "basically", "actually", "literally", "right", "okay", "well", "just"]).map String.data

/-- The same stoplist with the four multi-word entries removed (the cleaner
the spec compares against in its refinement remark). -/
def filler_words_cleaning_singles : List (List Char) :=
  (["um", "uh", "like",
    "basically", "actually", "literally", "right", "okay", "well", "just"]).map String.data

/-- The bigram string `bi = f"{word} {words[i+1].strip('.,;!?')}"`. -/
def mkBigram (w0 w1 : List Char) : List Char :=
  stripPunct w0 ++ ' ' :: stripPunct w1

/-- The trigram string `tri = f"{word} {words[i+1].strip('.,;!?')} {words[i+2].strip('.,;!?')}"`. -/
def mkTrigram (w0 w1 w2 : List Char) : List Char :=
  stripPunct w0 ++ ' ' :: stripPunct w1 ++ ' ' :: stripPunct w2

/-- The single-word step of the scan:
`if word in self.medical_terms or word not in filler_words: kept.append(word)`. -/
def keepSingle (terms filler : List (List Char)) (w : List Char) : List (List Char) :=
  if stripPunct w ∈ terms ∨ stripPunct w ∉ filler then [stripPunct w] else []

/-- The cursor scan of one sentence's word list (`while i < len(words)`),
with its priority order: trigram in `phrases` (advance 3), else bigram in
`terms` or `phrases` (advance 2), else the single-word step (advance 1).
The guards `i < len(words) - 2` and `i < len(words) - 1` are the three match
arms on the list shape. -/
def scanWords (terms phrases filler : List (List Char)) :
    List (List Char) → List (List Char)
  | [] => []
  | [w0] => keepSingle terms filler w0
  | [w0, w1] =>
    if mkBigram w0 w1 ∈ terms ∨ mkBigram w0 w1 ∈ phrases then
      [stripPunct w0, stripPunct w1]
    else keepSingle terms filler w0 ++ scanWords terms phrases filler [w1]
  | w0 :: w1 :: w2 :: rest =>
    if mkTrigram w0 w1 w2 ∈ phrases then
      stripPunct w0 :: stripPunct w1 :: stripPunct w2 ::
        scanWords terms phrases filler rest
    else if mkBigram w0 w1 ∈ terms ∨ mkBigram w0 w1 ∈ phrases then
      stripPunct w0 :: stripPunct w1 :: scanWords terms phrases filler (w2 :: rest)
    else keepSingle terms filler w0 ++ scanWords terms phrases filler (w1 :: w2 :: rest)

/-- Cleaning of one sentence: lowercase, split on whitespace, scan, and if any
word was kept, capitalize the first and join with single spaces (`if kept:`
drops a fully filtered sentence). -/
def cleanSentence (terms phrases filler : List (List Char)) (sentence : List Char) :
    Option (List Char) :=
  match scanWords terms phrases filler (pySplitWS (lowerStr sentence)) with
  | [] => none
  | k0 :: ks => some (List.intercalate [' '] (capitalizeStr k0 :: ks))

/-- The list `cleaned` of `clean_transcription`: the sentences (split on
periods, whitespace-stripped, empties dropped) that survive cleaning. -/
def cleanedSentences (filler : List (List Char)) (db : MedicalDB)
    (text : List Char) : List (List Char) :=
  (((splitDot text).map stripWS).filter (fun s => !s.isEmpty)).filterMap
    (cleanSentence db.medical_terms db.medical_phrases filler)

/-- The function `clean_transcription`, parametrized by the cleaning stoplist: untrained
state passes the text through; otherwise split into sentences on periods,
clean each, join survivors with `'. '` plus a final period, and fall back to
the original text when no sentence survives
(`return '. '.join(cleaned) + '.' if cleaned else text`). -/
def cleanWith (filler : List (List Char)) (db : MedicalDB) (text : List Char) :
    List Char :=
  if db.trained then
    if (cleanedSentences filler db text).isEmpty then text
    else List.intercalate (lc ". ") (cleanedSentences filler db text) ++ ['.']
  else text

/-- The function `clean_transcription` of the source, with its own stoplist. -/
def clean_transcription (db : MedicalDB) (text : List Char) : List Char :=
  cleanWith filler_words_cleaning db text

/-- Shape of a training token: non-empty, all lowercase alphabetic. -/
def isTokenShape (w : List Char) : Prop :=
  w ≠ [] ∧ ∀ c ∈ w, isLowerAlpha c

/-- Maximal-run extraction as the spec words it: split the (already lowered)
text into the maximal runs of alphabetic characters, every non-alphabetic
character acting as a discarded separator.  Reference definition for the
tokenizer comparison. -/
def alphaRunsAux (cur : List Char) : List Char → List (List Char)
  | [] => if cur.isEmpty then [] else [cur.reverse]
  | c :: cs =>
    if isLowerAlpha c then alphaRunsAux (c :: cur) cs
    else if cur.isEmpty then alphaRunsAux [] cs
    else cur.reverse :: alphaRunsAux [] cs

/-- Maximal alphabetic runs of a character list. -/
def alphaRuns (l : List Char) : List (List Char) := alphaRunsAux [] l

/-- The four multi-word entries of the cleaning stoplist. -/
def multiwordFillers : List (List Char) :=
  (["you know", "i mean", "sort of", "kind of"]).map String.data

/-- Characters of a stripped word are characters of the word. -/
theorem mem_of_mem_stripEnds {p : Char → Bool} {s : List Char} {c : Char}
    (h : c ∈ stripEnds p s) : c ∈ s := by
  unfold stripEnds at h
  rw [List.mem_reverse] at h
  have h2 := List.dropWhile_subset p h
  rw [List.mem_reverse] at h2
  exact List.dropWhile_subset p h2

/-- Words produced by `str.split()` contain no whitespace character. -/
theorem pySplitAux_space_free (l : List Char) :
    ∀ cur, (∀ c ∈ cur, isPySpace c = false) →
      ∀ w ∈ pySplitAux cur l, ∀ c ∈ w, isPySpace c = false := by
  induction l with
  | nil =>
    intro cur hcur w hw c hc
    by_cases hce : cur.isEmpty
    · simp [pySplitAux, hce] at hw
    · simp only [pySplitAux, hce, if_neg, Bool.false_eq_true, ite_false,
        List.mem_singleton] at hw
      subst hw
      exact hcur c (List.mem_reverse.mp hc)
  | cons a as ih =>
    intro cur hcur w hw
    simp only [pySplitAux] at hw
    by_cases hsp : isPySpace a
    · rw [if_pos hsp] at hw
      by_cases hce : cur.isEmpty
      · rw [if_pos hce] at hw
        exact ih [] (by simp) w hw
      · rw [if_neg hce] at hw
        rcases List.mem_cons.mp hw with h | h
        · subst h
          intro c hc
          exact hcur c (List.mem_reverse.mp hc)
        · exact ih [] (by simp) w h
    · rw [if_neg hsp] at hw
      refine ih (a :: cur) ?_ w hw
      intro c hc
      rcases List.mem_cons.mp hc with h | h
      · subst h
        exact Bool.eq_false_iff.mpr hsp
      · exact hcur c h

/-- No word of `str.split()` contains a space. -/
theorem pySplitWS_space_free (s : List Char) :
    ∀ w ∈ pySplitWS s, ' ' ∉ w := by
  intro w hw hsp
  have h := pySplitAux_space_free s [] (by simp) w hw ' ' hsp
  simp [isPySpace] at h

/-- Every multi-word filler entry contains a space. -/
theorem multiwordFillers_have_space : ∀ w ∈ multiwordFillers, ' ' ∈ w := by
  intro w hw
  simp only [multiwordFillers, List.map, List.mem_cons, List.not_mem_nil,
    or_false] at hw
  rcases hw with h | h | h | h <;> subst h <;> decide

/-- The cleaning stoplist is, up to order, the single-word entries together
with the multi-word entries. -/
theorem filler_cleaning_perm :
    filler_words_cleaning.Perm (filler_words_cleaning_singles ++ multiwordFillers) := by
  decide

/-- On a space-free word, membership in the cleaning stoplist agrees with
membership in its single-word part. -/
theorem mem_filler_cleaning_iff {w : List Char} (hw : ' ' ∉ w) :
    w ∈ filler_words_cleaning ↔ w ∈ filler_words_cleaning_singles := by
  rw [filler_cleaning_perm.mem_iff, List.mem_append]
  constructor
  · rintro (h | h)
    · exact h
    · exact absurd (multiwordFillers_have_space w h) hw
  · exact Or.inl

/-- The step `keepSingle` only consults the stoplist on the stripped word; two
stoplists agreeing on space-free words make it agree on space-free input. -/
theorem keepSingle_congr {f g : List (List Char)} (terms : List (List Char))
    (hfg : ∀ w : List Char, ' ' ∉ w → (w ∈ f ↔ w ∈ g)) {w : List Char}
    (hw : ' ' ∉ w) : keepSingle terms f w = keepSingle terms g w := by
  have hs : ' ' ∉ stripPunct w := fun h => hw (mem_of_mem_stripEnds h)
  unfold keepSingle
  rw [if_congr (or_congr Iff.rfl (not_congr (hfg (stripPunct w) hs))) rfl rfl]

/-- The scan branches only on `terms`/`phrases`; the stoplist only enters
through `keepSingle`.  Two stoplists agreeing on space-free words give equal
scans on space-free word lists. -/
theorem scanWords_filler_congr (terms phrases f g : List (List Char))
    (hfg : ∀ w : List Char, ' ' ∉ w → (w ∈ f ↔ w ∈ g)) :
    ∀ ws : List (List Char), (∀ w ∈ ws, ' ' ∉ w) →
      scanWords terms phrases f ws = scanWords terms phrases g ws := by
  intro ws
  induction ws using scanWords.induct terms phrases f with
  | case1 =>
    intro _
    rfl
  | case2 w0 =>
    intro h
    simpa only [scanWords] using
      keepSingle_congr terms hfg (h w0 (by simp))
  | case3 w0 w1 hbi =>
    intro _
    simp only [scanWords, if_pos hbi]
  | case4 w0 w1 hbi ih =>
    intro h
    simp only [scanWords, if_neg hbi]
    rw [keepSingle_congr terms hfg (h w0 (by simp)),
      keepSingle_congr terms hfg (h w1 (by simp))]
  | case5 w0 w1 w2 rest htri ih =>
    intro h
    simp only [scanWords, if_pos htri]
    rw [ih (fun w hw => h w (by simp [hw]))]
  | case6 w0 w1 w2 rest htri hbi ih =>
    intro h
    simp only [scanWords, if_neg htri, if_pos hbi]
    rw [ih (fun w hw => h w (by rcases List.mem_cons.mp hw with h1 | h1 <;> simp [h1]))]
  | case7 w0 w1 w2 rest htri hbi ih =>
    intro h
    simp only [scanWords, if_neg htri, if_neg hbi]
    rw [keepSingle_congr terms hfg (h w0 (by simp)),
      ih (fun w hw => h w (by rcases List.mem_cons.mp hw with h1 | h1 <;> simp [h1]))]

/-- Every token emitted by the tokenizer worker is a non-empty run of
lowercase letters (given that the run being collected, if any, is one). -/
theorem tokenizeAux_shape (l : List Char) :
    ∀ (prev : Bool) (cur : Option (List Char)),
      (∀ run, cur = some run → run ≠ [] ∧ ∀ c ∈ run, isLowerAlpha c) →
      ∀ t ∈ tokenizeAux l prev cur, t ≠ [] ∧ ∀ c ∈ t, isLowerAlpha c := by
  induction l with
  | nil =>
    intro prev cur hcur t ht
    cases cur with
    | none => simp [tokenizeAux] at ht
    | some run =>
      simp only [tokenizeAux, List.mem_singleton] at ht
      subst ht
      obtain ⟨hne, hall⟩ := hcur run rfl
      refine ⟨by simpa using hne, fun c hc => hall c (List.mem_reverse.mp hc)⟩
  | cons a as ih =>
    intro prev cur hcur t ht
    cases cur with
    | none =>
      simp only [tokenizeAux] at ht
      by_cases ha : isLowerAlpha a
      · rw [if_pos ha] at ht
        by_cases hp : prev = true
        · rw [if_pos hp] at ht
          exact ih true none (by simp) t ht
        · rw [if_neg hp] at ht
          refine ih true (some [a]) ?_ t ht
          intro run hrun
          cases hrun
          exact ⟨by simp, by simpa using ha⟩
      · rw [if_neg ha] at ht
        exact ih (isWordChar a) none (by simp) t ht
    | some run =>
      obtain ⟨hne, hall⟩ := hcur run rfl
      simp only [tokenizeAux] at ht
      by_cases ha : isLowerAlpha a
      · rw [if_pos ha] at ht
        refine ih true (some (a :: run)) ?_ t ht
        intro run2 hrun2
        cases hrun2
        refine ⟨by simp, ?_⟩
        intro c hc
        rcases List.mem_cons.mp hc with h | h
        · subst h; exact ha
        · exact hall c h
      · rw [if_neg ha] at ht
        by_cases hw : isWordChar a
        · rw [if_pos hw] at ht
          exact ih true none (by simp) t ht
        · rw [if_neg hw] at ht
          rcases List.mem_cons.mp ht with h | h
          · subst h
            refine ⟨by simpa using hne, fun c hc => hall c (List.mem_reverse.mp hc)⟩
          · exact ih false none (by simp) t h

/-- Every token of a document is a non-empty lowercase-alphabetic word. -/
theorem tokenize_shape (s : List Char) : ∀ t ∈ tokenize s, isTokenShape t :=
  fun t ht => tokenizeAux_shape (lowerStr s) false none (by simp) t ht

/-- Every corpus word is a non-empty lowercase-alphabetic token. -/
theorem corpusWords_shape (docs : List (List Char)) :
    ∀ w ∈ corpusWords docs, isTokenShape w := by
  intro w hw
  rw [corpusWords, List.mem_flatten] at hw
  obtain ⟨l, hl, hwl⟩ := hw
  rw [List.mem_map] at hl
  obtain ⟨d, _, hd⟩ := hl
  subst hd
  exact tokenize_shape d w hwl

/-- A bigram of a token list is two of its tokens joined by one space. -/
theorem mem_bigramsOf {p : List Char} :
    ∀ {ts : List (List Char)}, p ∈ bigramsOf ts →
      ∃ a b, a ∈ ts ∧ b ∈ ts ∧ p = a ++ ' ' :: b := by
  intro ts h
  induction ts with
  | nil => simp [bigramsOf] at h
  | cons w1 rest ih =>
    cases rest with
    | nil => simp [bigramsOf] at h
    | cons w2 rest2 =>
      rcases List.mem_cons.mp h with h1 | h1
      · exact ⟨w1, w2, by simp, by simp, h1⟩
      · obtain ⟨a, b, ha, hb, hab⟩ := ih h1
        exact ⟨a, b, List.mem_cons_of_mem _ ha, List.mem_cons_of_mem _ hb, hab⟩

/-- A trigram of a token list is three of its tokens joined by spaces. -/
theorem mem_trigramsOf {p : List Char} :
    ∀ {ts : List (List Char)}, p ∈ trigramsOf ts →
      ∃ a b c, a ∈ ts ∧ b ∈ ts ∧ c ∈ ts ∧ p = a ++ ' ' :: b ++ ' ' :: c := by
  intro ts h
  induction ts with
  | nil => simp [trigramsOf] at h
  | cons w1 rest ih =>
    cases rest with
    | nil => simp [trigramsOf] at h
    | cons w2 rest2 =>
      cases rest2 with
      | nil => simp [trigramsOf] at h
      | cons w3 rest3 =>
        rcases List.mem_cons.mp h with h1 | h1
        · exact ⟨w1, w2, w3, by simp, by simp, by simp, h1⟩
        · obtain ⟨a, b, c, ha, hb, hc, habc⟩ := ih h1
          exact ⟨a, b, c, List.mem_cons_of_mem _ ha, List.mem_cons_of_mem _ hb,
            List.mem_cons_of_mem _ hc, habc⟩

/-- Corpus bigrams decompose into two tokens of one document. -/
theorem corpusBigrams_shape (docs : List (List Char)) :
    ∀ p ∈ corpusBigrams docs,
      ∃ a b, isTokenShape a ∧ isTokenShape b ∧ p = a ++ ' ' :: b := by
  intro p hp
  rw [corpusBigrams, List.mem_flatten] at hp
  obtain ⟨l, hl, hpl⟩ := hp
  rw [List.mem_map] at hl
  obtain ⟨d, _, hd⟩ := hl
  subst hd
  obtain ⟨a, b, ha, hb, hab⟩ := mem_bigramsOf hpl
  exact ⟨a, b, tokenize_shape d a ha, tokenize_shape d b hb, hab⟩

/-- Corpus trigrams decompose into three tokens of one document. -/
theorem corpusTrigrams_shape (docs : List (List Char)) :
    ∀ p ∈ corpusTrigrams docs,
      ∃ a b c, isTokenShape a ∧ isTokenShape b ∧ isTokenShape c ∧
        p = a ++ ' ' :: b ++ ' ' :: c := by
  intro p hp
  rw [corpusTrigrams, List.mem_flatten] at hp
  obtain ⟨l, hl, hpl⟩ := hp
  rw [List.mem_map] at hl
  obtain ⟨d, _, hd⟩ := hl
  subst hd
  obtain ⟨a, b, c, ha, hb, hc, habc⟩ := mem_trigramsOf hpl
  exact ⟨a, b, c, tokenize_shape d a ha, tokenize_shape d b hb,
    tokenize_shape d c hc, habc⟩

/-- Membership characterization of the derived terms. -/
theorem mem_medical_terms_iff (docs : List (List Char)) (w : List Char) :
    w ∈ medical_terms_of docs ↔
      3 ≤ (corpusWords docs).count w ∧ 3 < w.length ∧
        w ∉ filler_words_training := by
  rw [medical_terms_of, List.mem_filter, List.mem_dedup]
  simp only [decide_eq_true_eq]
  constructor
  · rintro ⟨_, h⟩
    exact h
  · rintro ⟨h1, h2, h3⟩
    refine ⟨List.count_pos_iff.mp (by omega), h1, h2, h3⟩

/-- Membership characterization of the derived phrases. -/
theorem mem_medical_phrases_iff (docs : List (List Char)) (p : List Char) :
    p ∈ medical_phrases_of docs ↔
      2 ≤ (corpusBigrams docs).count p ∨ 2 ≤ (corpusTrigrams docs).count p := by
  rw [medical_phrases_of, List.mem_append, List.mem_filter, List.mem_filter,
    List.mem_dedup, List.mem_dedup]
  simp only [decide_eq_true_eq]
  constructor
  · rintro (⟨_, h⟩ | ⟨_, h⟩)
    · exact Or.inl h
    · exact Or.inr h
  · rintro (h | h)
    · exact Or.inl ⟨List.count_pos_iff.mp (by omega), h⟩
    · exact Or.inr ⟨List.count_pos_iff.mp (by omega), h⟩

/-- On text whose characters are all letters or non-word separators (no
digits, no underscores), the word-boundary tokenizer coincides with plain
maximal-run extraction, in every reachable state. -/
theorem tokenizeAux_eq_alphaRunsAux (l : List Char)
    (h : ∀ c ∈ l, isLowerAlpha c = true ∨ isWordChar c = false) :
    tokenizeAux l false none = alphaRunsAux [] l ∧
      ∀ run, run ≠ [] → tokenizeAux l true (some run) = alphaRunsAux run l := by
  induction l with
  | nil =>
    refine ⟨rfl, ?_⟩
    intro run hrun
    cases run with
    | nil => exact absurd rfl hrun
    | cons r rs => rfl
  | cons a as ih =>
    have ha' := h a (by simp)
    obtain ⟨ih1, ih2⟩ := ih (fun c hc => h c (List.mem_cons_of_mem _ hc))
    constructor
    · by_cases ha : isLowerAlpha a
      · simp only [tokenizeAux, alphaRunsAux, if_pos ha, Bool.false_eq_true,
          if_false]
        exact ih2 [a] (by simp)
      · have hw : isWordChar a = false := by
          rcases ha' with h1 | h1
          · exact absurd h1 ha
          · exact h1
        simp only [tokenizeAux, alphaRunsAux, if_neg ha, hw, List.isEmpty_nil,
          if_true]
        exact ih1
    · intro run hrun
      by_cases ha : isLowerAlpha a
      · simp only [tokenizeAux, alphaRunsAux, if_pos ha]
        exact ih2 (a :: run) (by simp)
      · have hw : isWordChar a = false := by
          rcases ha' with h1 | h1
          · exact absurd h1 ha
          · exact h1
        have hre : run.isEmpty = false := by
          cases run with
          | nil => exact absurd rfl hrun
          | cons r rs => rfl
        simp only [tokenizeAux, alphaRunsAux, if_neg ha, hw, hre,
          Bool.false_eq_true, if_false]
        rw [ih1]

/-- A word kept by the single-word step is the stripped current word. -/
theorem mem_keepSingle {terms filler : List (List Char)} {w k : List Char}
    (h : k ∈ keepSingle terms filler w) : k = stripPunct w := by
  unfold keepSingle at h
  split at h
  · exact List.mem_singleton.mp h
  · simp at h

/-- Per-sentence cleaning does not depend on the multi-word stoplist
entries, because split words contain no whitespace. -/
theorem cleanSentence_filler_eq (terms phrases : List (List Char))
    (s : List Char) :
    cleanSentence terms phrases filler_words_cleaning s =
      cleanSentence terms phrases filler_words_cleaning_singles s := by
  unfold cleanSentence
  rw [scanWords_filler_congr terms phrases _ _
    (fun w hw => mem_filler_cleaning_iff hw)
    (pySplitWS (lowerStr s)) (pySplitWS_space_free (lowerStr s))]

/-- C3: `Clean` applied with the empty Vocabulary (no terms, no phrases —
the untrained state of `__init__`, where `trained` is false) returns the
input text unchanged: the guard `if not self.trained: return text` performs
no filler removal. -/
theorem clean_untrained_identity (text : List Char) :
    clean_transcription untrainedDB text = text := rfl

/-- C5: a token is a term iff its corpus-wide count is at least 3, its
length exceeds 3, and it is not in the fixed training stoplist; a string is
a phrase iff it is a bigram of count at least 2 or a trigram of count at
least 2. -/
theorem training_thresholds (docs : List (List Char)) (w p : List Char) :
    (w ∈ medical_terms_of docs ↔
      3 ≤ (corpusWords docs).count w ∧ 3 < w.length ∧
        w ∉ filler_words_training) ∧
    (p ∈ medical_phrases_of docs ↔
      2 ≤ (corpusBigrams docs).count p ∨ 2 ≤ (corpusTrigrams docs).count p) :=
  ⟨mem_medical_terms_iff docs w, mem_medical_phrases_iff docs p⟩

/-- C7: when the scan reaches a word at which neither the trigram nor the
bigram check fires, the word is kept iff its stripped form is in `terms` or
not in the cleaning stoplist; so a term is never dropped at this step, and a
non-term stoplist word is always dropped. -/
theorem single_word_fallback (terms phrases : List (List Char))
    (w0 : List Char) (rest : List (List Char))
    (htri : ∀ w1 w2 rest2, rest = w1 :: w2 :: rest2 →
      mkTrigram w0 w1 w2 ∉ phrases)
    (hbi : ∀ w1 rest1, rest = w1 :: rest1 →
      mkBigram w0 w1 ∉ terms ∧ mkBigram w0 w1 ∉ phrases) :
    scanWords terms phrases filler_words_cleaning (w0 :: rest) =
      (if stripPunct w0 ∈ terms ∨ stripPunct w0 ∉ filler_words_cleaning
        then [stripPunct w0] else [])
        ++ scanWords terms phrases filler_words_cleaning rest := by
  cases rest with
  | nil => simp [scanWords, keepSingle]
  | cons w1 rest1 =>
    cases rest1 with
    | nil =>
      obtain ⟨hb1, hb2⟩ := hbi w1 [] rfl
      simp only [scanWords, keepSingle]
      rw [if_neg (by tauto)]
    | cons w2 rest2 =>
      have ht := htri w1 w2 rest2 rfl
      obtain ⟨hb1, hb2⟩ := hbi w1 (w2 :: rest2) rfl
      simp only [scanWords, keepSingle]
      rw [if_neg ht, if_neg (by tauto)]

/-- Witness for C7 at a concrete fallback position: with empty vocabulary,
scanning ["um", "ok"] treats "um" by the single-word step. -/
theorem single_word_fallback_witness :
    scanWords [] [] filler_words_cleaning [lc "um", lc "ok"] =
      (if stripPunct (lc "um") ∈ ([] : List (List Char)) ∨
          stripPunct (lc "um") ∉ filler_words_cleaning
        then [stripPunct (lc "um")] else [])
        ++ scanWords [] [] filler_words_cleaning [lc "ok"] :=
  single_word_fallback [] [] (lc "um") [lc "ok"]
    (fun w1 w2 rest2 h => by simp at h)
    (fun w1 rest1 _ => ⟨by simp, by simp⟩)

/-- C8: for non-empty input text, `Clean` never returns the empty string,
and when every sentence is filtered to nothing (the surviving-sentence list
`cleaned` is empty) it returns the original unmodified input text — the
fallback `'. '.join(cleaned) + '.' if cleaned else text`. -/
theorem clean_nonempty (db : MedicalDB) (text : List Char) (h : text ≠ []) :
    clean_transcription db text ≠ [] ∧
      (cleanedSentences filler_words_cleaning db text = [] →
        clean_transcription db text = text) := by
  unfold clean_transcription cleanWith
  by_cases ht : db.trained
  · rw [if_pos ht]
    by_cases hc : (cleanedSentences filler_words_cleaning db text).isEmpty
    · rw [if_pos hc]
      exact ⟨h, fun _ => rfl⟩
    · rw [if_neg hc]
      constructor
      · intro hco
        have := congrArg List.length hco
        simp at this
      · intro he
        rw [he] at hc
        simp at hc
  · rw [if_neg ht]
    exact ⟨h, fun _ => rfl⟩

/-- Witness for C8: with a trained but empty vocabulary every sentence of
"um." is filtered to nothing, and `Clean` returns the original text "um."
itself, which is non-empty. -/
theorem clean_nonempty_witness :
    lc "um." ≠ [] ∧
      cleanedSentences filler_words_cleaning ⟨[], [], true⟩ (lc "um.") = [] ∧
      clean_transcription ⟨[], [], true⟩ (lc "um.") ≠ [] ∧
      clean_transcription ⟨[], [], true⟩ (lc "um.") = lc "um." :=
  ⟨by decide, by decide,
    (clean_nonempty ⟨[], [], true⟩ (lc "um.") (by decide)).1,
    (clean_nonempty ⟨[], [], true⟩ (lc "um.") (by decide)).2 (by decide)⟩

/-- C9: the four multi-word entries of the cleaning stoplist can never equal
a single split word (split words contain no whitespace), so the cleaner
computes the same output as the otherwise identical cleaner whose stoplist
omits them. -/
theorem clean_multiword_filler_irrelevant (db : MedicalDB) (text : List Char) :
    clean_transcription db text =
      cleanWith filler_words_cleaning_singles db text := by
  unfold clean_transcription cleanWith cleanedSentences
  rw [funext (cleanSentence_filler_eq db.medical_terms db.medical_phrases)]

/-- C10: every trained vocabulary satisfies the shape invariant: terms are
single non-empty lowercase-alphabetic tokens without a space, phrases are
two or three such tokens joined by single spaces (hence contain a space),
and consequently the two sets are disjoint. -/
theorem vocabulary_shape (docs : List (List Char)) :
    (∀ w ∈ medical_terms_of docs, isTokenShape w ∧ ' ' ∉ w) ∧
    (∀ p ∈ medical_phrases_of docs,
      ((∃ a b, isTokenShape a ∧ isTokenShape b ∧ p = a ++ ' ' :: b) ∨
        (∃ a b c, isTokenShape a ∧ isTokenShape b ∧ isTokenShape c ∧
          p = a ++ ' ' :: b ++ ' ' :: c)) ∧ ' ' ∈ p) ∧
    (∀ x ∈ medical_terms_of docs, x ∉ medical_phrases_of docs) := by
  have hterm : ∀ w ∈ medical_terms_of docs, isTokenShape w ∧ ' ' ∉ w := by
    intro w hw
    have hmem : w ∈ corpusWords docs :=
      List.mem_dedup.mp (List.mem_filter.mp hw).1
    have hsh := corpusWords_shape docs w hmem
    refine ⟨hsh, ?_⟩
    intro hsp
    have := hsh.2 ' ' hsp
    simp [isLowerAlpha] at this
  have hph : ∀ p ∈ medical_phrases_of docs,
      ((∃ a b, isTokenShape a ∧ isTokenShape b ∧ p = a ++ ' ' :: b) ∨
        (∃ a b c, isTokenShape a ∧ isTokenShape b ∧ isTokenShape c ∧
          p = a ++ ' ' :: b ++ ' ' :: c)) ∧ ' ' ∈ p := by
    intro p hp
    rw [medical_phrases_of] at hp
    rcases List.mem_append.mp hp with h | h
    · have hmem : p ∈ corpusBigrams docs :=
        List.mem_dedup.mp (List.mem_filter.mp h).1
      obtain ⟨a, b, ha, hb, hab⟩ := corpusBigrams_shape docs p hmem
      refine ⟨Or.inl ⟨a, b, ha, hb, hab⟩, ?_⟩
      subst hab
      exact List.mem_append_right a (by simp)
    · have hmem : p ∈ corpusTrigrams docs :=
        List.mem_dedup.mp (List.mem_filter.mp h).1
      obtain ⟨a, b, c, ha, hb, hc, habc⟩ := corpusTrigrams_shape docs p hmem
      refine ⟨Or.inr ⟨a, b, c, ha, hb, hc, habc⟩, ?_⟩
      subst habc
      simp
  refine ⟨hterm, hph, ?_⟩
  intro x hx hpx
  exact (hterm x hx).2 (hph x hpx).2

/-- Witness for C10 on a concrete corpus: "aaaa" is a term of the right
shape, "aaaa aaaa" a phrase of the right shape, and "aaaa" is not a phrase. -/
theorem vocabulary_shape_witness :
    (isTokenShape (lc "aaaa") ∧ ' ' ∉ lc "aaaa") ∧
      (((∃ a b, isTokenShape a ∧ isTokenShape b ∧
          lc "aaaa aaaa" = a ++ ' ' :: b) ∨
        (∃ a b c, isTokenShape a ∧ isTokenShape b ∧ isTokenShape c ∧
          lc "aaaa aaaa" = a ++ ' ' :: b ++ ' ' :: c)) ∧
        ' ' ∈ lc "aaaa aaaa") ∧
      lc "aaaa" ∉
        medical_phrases_of [lc "aaaa aaaa aaaa bbbb cccc bbbb cccc"] :=
  ⟨(vocabulary_shape [lc "aaaa aaaa aaaa bbbb cccc bbbb cccc"]).1
      (lc "aaaa") (by decide),
    (vocabulary_shape [lc "aaaa aaaa aaaa bbbb cccc bbbb cccc"]).2.1
      (lc "aaaa aaaa") (by decide),
    (vocabulary_shape [lc "aaaa aaaa aaaa bbbb cccc bbbb cccc"]).2.2
      (lc "aaaa") (by decide)⟩

/-- C1 counterexample: one candidate file whose text extraction fails (the
source skips unreadable documents and continues): zero sources yield any
text, yet `train_worker` does not fail with the no-corpus error — it
succeeds and replaces the prior vocabulary with the empty one. -/
theorem train_allFail_counterexample :
    train_worker [none] ⟨[lc "sepsis"], [], true⟩ =
        TrainOutcome.success ⟨[], [], true⟩ ∧
      train_worker [none] ⟨[lc "sepsis"], [], true⟩ ≠
        TrainOutcome.noCorpus ⟨[lc "sepsis"], [], true⟩ := by
  refine ⟨rfl, ?_⟩
  intro h
  exact TrainOutcome.noConfusion h

/-- C1 (amended): the no-corpus failure with the prior Vocabulary left
untouched happens exactly when the folder glob finds no candidate files at
all; when candidate files exist but none yields text, training instead
succeeds and replaces the prior Vocabulary with the empty one. -/
theorem train_worker_atomic_on_empty_folder
    (files : List (Option (List Char))) (db : MedicalDB) :
    (files = [] → train_worker files db = TrainOutcome.noCorpus db) ∧
    (files ≠ [] → files.filterMap id = [] →
      train_worker files db = TrainOutcome.success ⟨[], [], true⟩) := by
  constructor
  · intro h
    subst h
    rfl
  · intro hne hmap
    unfold train_worker
    rw [if_neg (by simpa [List.isEmpty_iff] using hne), hmap]
    rfl

/-- Witness for C1 (amended): an empty folder leaves the prior vocabulary
untouched; a folder with one unreadable file replaces it with the empty
vocabulary. -/
theorem train_worker_atomic_on_empty_folder_witness :
    train_worker [] ⟨[lc "sepsis"], [], true⟩ =
        TrainOutcome.noCorpus ⟨[lc "sepsis"], [], true⟩ ∧
      train_worker [none, none] ⟨[lc "sepsis"], [], true⟩ =
        TrainOutcome.success ⟨[], [], true⟩ :=
  ⟨(train_worker_atomic_on_empty_folder [] ⟨[lc "sepsis"], [], true⟩).1 rfl,
    (train_worker_atomic_on_empty_folder [none, none]
      ⟨[lc "sepsis"], [], true⟩).2 (by simp) rfl⟩

/-- C2 counterexample: `phrases` contains the trigram "b just d" and the
bigram "a b".  Cleaning "a b just d" first consumes "a b" as a bigram match,
the cursor skips past the trigram occurrence at words 1..3, and its middle
word "just" is then dropped as filler: a sentence containing a known trigram
phrase does not keep all three of its words. -/
theorem trigram_fragmented_counterexample :
    lc "b just d" ∈
        (⟨[], [lc "a b", lc "b just d"], true⟩ : MedicalDB).medical_phrases ∧
      clean_transcription ⟨[], [lc "a b", lc "b just d"], true⟩
          (lc "a b just d") =
        lc "A b d." := by
  exact ⟨by decide, by decide⟩

/-- C2 (amended): phrase protection holds at the cursor: whenever the scan
reaches a position whose word and next two words form (after punctuation
stripping) a trigram in `phrases`, all three stripped words are kept
contiguously and the scan resumes after them — in particular a known trigram
at the start of a sentence always survives contiguously.  The original claim
fails only when an earlier trigram or bigram match consumes a proper prefix
of the occurrence, moving the cursor past its first word. -/
theorem trigram_protected_at_cursor (terms phrases filler : List (List Char))
    (w0 w1 w2 : List Char) (rest : List (List Char))
    (h : mkTrigram w0 w1 w2 ∈ phrases) :
    scanWords terms phrases filler (w0 :: w1 :: w2 :: rest) =
      stripPunct w0 :: stripPunct w1 :: stripPunct w2 ::
        scanWords terms phrases filler rest := by
  simp only [scanWords, if_pos h]

/-- Witness for C2 (amended): the known trigram "um uh well", with filler
words and punctuation in the sentence, survives contiguously from the start
of the word list. -/
theorem trigram_protected_at_cursor_witness :
    scanWords [] [lc "um uh well"] filler_words_cleaning
        [lc "um,", lc "uh", lc "well."] =
      stripPunct (lc "um,") :: stripPunct (lc "uh") ::
        stripPunct (lc "well.") ::
        scanWords [] [lc "um uh well"] filler_words_cleaning [] :=
  trigram_protected_at_cursor [] [lc "um uh well"] filler_words_cleaning
    (lc "um,") (lc "uh") (lc "well.") [] (by decide)

/-- C4 counterexample: in "abc123" the letter run "abc" is adjacent to a
digit, so the word-boundary regex matches nothing — the run is not extracted
as a token (while "abc 123", where the digit is separated, does yield it). -/
theorem tokenize_digit_adjacent_counterexample :
    tokenize (lc "abc123") = [] ∧ tokenize (lc "abc 123") = [lc "abc"] :=
  ⟨by decide, by decide⟩

/-- C4 (amended): tokenization lowercases the full text and extracts the
maximal runs of alphabetic characters except that a run adjacent to a digit
or underscore (another regex word character) is discarded entirely rather
than extracted.  Consequently, on text whose lowered characters are all
letters or non-word separators (punctuation, whitespace — no digits or
underscores), the tokens are exactly the maximal alphabetic runs. -/
theorem tokenize_eq_alphaRuns_without_wordseps (s : List Char)
    (h : ∀ c ∈ lowerStr s, isLowerAlpha c = true ∨ isWordChar c = false) :
    tokenize s = alphaRuns (lowerStr s) :=
  (tokenizeAux_eq_alphaRunsAux (lowerStr s) h).1

/-- Witness for C4 (amended) on text with punctuation separators only. -/
theorem tokenize_eq_alphaRuns_without_wordseps_witness :
    tokenize (lc "ab, cd!ef") = alphaRuns (lowerStr (lc "ab, cd!ef")) :=
  tokenize_eq_alphaRuns_without_wordseps (lc "ab, cd!ef") (by decide)

/-- C6 counterexample: with "world" a term, cleaning "hello, world" keeps
the word written "hello," but reproduces it as "hello": the punctuation
strip is applied to the kept output as well, not only to the comparison. -/
theorem kept_word_stripped_counterexample :
    clean_transcription ⟨[lc "world"], [], true⟩ (lc "hello, world") =
      lc "Hello world." := by
  decide

/-- C6 (amended): the punctuation characters `.,;!?` are stripped both for
comparison and in the output: every word kept by the scan — by trigram
match, bigram match, or the single-word step — is emitted as the
`.strip('.,;!?')` of a word of the (lowercased, whitespace-split) sentence,
its internal characters unaltered. -/
theorem kept_words_are_stripped (terms phrases filler : List (List Char)) :
    ∀ ws : List (List Char), ∀ k ∈ scanWords terms phrases filler ws,
      ∃ w ∈ ws, k = stripPunct w := by
  intro ws
  induction ws using scanWords.induct terms phrases filler with
  | case1 =>
    intro k hk
    simp [scanWords] at hk
  | case2 w0 =>
    intro k hk
    simp only [scanWords] at hk
    exact ⟨w0, by simp, mem_keepSingle hk⟩
  | case3 w0 w1 hbi =>
    intro k hk
    simp only [scanWords, if_pos hbi] at hk
    rcases List.mem_cons.mp hk with h | h
    · exact ⟨w0, by simp, h⟩
    · exact ⟨w1, by simp, List.mem_singleton.mp h⟩
  | case4 w0 w1 hbi =>
    intro k hk
    simp only [scanWords, if_neg hbi] at hk
    rcases List.mem_append.mp hk with h | h
    · exact ⟨w0, by simp, mem_keepSingle h⟩
    · exact ⟨w1, by simp, mem_keepSingle h⟩
  | case5 w0 w1 w2 rest htri ih =>
    intro k hk
    simp only [scanWords, if_pos htri] at hk
    rcases List.mem_cons.mp hk with h | h
    · exact ⟨w0, by simp, h⟩
    rcases List.mem_cons.mp h with h1 | h1
    · exact ⟨w1, by simp, h1⟩
    rcases List.mem_cons.mp h1 with h2 | h2
    · exact ⟨w2, by simp, h2⟩
    · obtain ⟨w, hw, hkw⟩ := ih k h2
      exact ⟨w, by simp [hw], hkw⟩
  | case6 w0 w1 w2 rest htri hbi ih =>
    intro k hk
    simp only [scanWords, if_neg htri, if_pos hbi] at hk
    rcases List.mem_cons.mp hk with h | h
    · exact ⟨w0, by simp, h⟩
    rcases List.mem_cons.mp h with h1 | h1
    · exact ⟨w1, by simp, h1⟩
    · obtain ⟨w, hw, hkw⟩ := ih k h1
      rcases List.mem_cons.mp hw with h2 | h2
      · exact ⟨w, by simp [h2], hkw⟩
      · exact ⟨w, by simp [h2], hkw⟩
  | case7 w0 w1 w2 rest htri hbi ih =>
    intro k hk
    simp only [scanWords, if_neg htri, if_neg hbi] at hk
    rcases List.mem_append.mp hk with h | h
    · exact ⟨w0, by simp, mem_keepSingle h⟩
    · obtain ⟨w, hw, hkw⟩ := ih k h
      rcases List.mem_cons.mp hw with h2 | h2
      · exact ⟨w, by simp [h2], hkw⟩
      rcases List.mem_cons.mp h2 with h3 | h3
      · exact ⟨w, by simp [h3], hkw⟩
      · exact ⟨w, by simp [h3], hkw⟩

/-- Witness for C6 (amended): the kept word "hello" is the strip of the
input word "hello,". -/
theorem kept_words_are_stripped_witness :
    ∃ w ∈ [lc "hello,"], lc "hello" = stripPunct w :=
  kept_words_are_stripped [] [] filler_words_cleaning [lc "hello,"]
    (lc "hello") (by decide)

end Voxify
